import Mathlib

/-!
Verification of the record transformation engine of `convert.js`
(testomatio/migrate-allure).

The JavaScript source is shallowly embedded: each JS function becomes a Lean
function over `String` / `List Char`, records (parsed CSV rows) become
association lists from column name to cell value, and JS regular-expression
scans are embedded as equivalent left-to-right single-pass scanners (structural
recursion, so that all definitions evaluate by `decide` / `rfl`).
-/

namespace MigrateAllure

/-- A parsed CSV record: ordered mapping from column name to cell value,
as produced by `csv.parse(..., { columns: true })`. -/
def Record := List (String × String)

/-- JS property access `record[key]` with absent keys behaving as the empty
string (both `undefined` and `''` are falsy and are only ever used through
truthiness checks or string contexts in the source). -/
def getD (record : Record) (key : String) : String :=
  match List.find? (fun kv => kv.1 == key) record with
  | some kv => kv.2
  | none => ""

/-- The whitespace class of JS regular expressions (`\s`) and of
`String.prototype.trim`, restricted to the code points enumerated by the
ECMAScript standard. -/
def isJsSpace (c : Char) : Bool :=
  c = ' ' || c = '\t' || c = '\n' || c = '\r' || c = '\x0b' || c = '\x0c' ||
  c = '\u00A0' || c = '\u1680' ||
  c = '\u2000' || c = '\u2001' || c = '\u2002' || c = '\u2003' || c = '\u2004' ||
  c = '\u2005' || c = '\u2006' || c = '\u2007' || c = '\u2008' || c = '\u2009' ||
  c = '\u200A' || c = '\u2028' || c = '\u2029' || c = '\u202F' || c = '\u205F' ||
  c = '\u3000' || c = '\uFEFF'

/-- `trim()` on a character list: drop leading and trailing JS whitespace. -/
def trimList (cs : List Char) : List Char :=
  ((cs.dropWhile isJsSpace).reverse.dropWhile isJsSpace).reverse

/-- JS `String.prototype.trim`. -/
def jsTrim (s : String) : String :=
  String.mk (trimList s.data)

/-- Match a literal character sequence at the start of the input; on success
return the remaining input. -/
def matchLit (pat : List Char) (cs : List Char) : Option (List Char) :=
  match pat, cs with
  | [], rest => some rest
  | _ :: _, [] => none
  | p :: ps, c :: rest => if c = p then matchLit ps rest else none

/-- JS `String.prototype.startsWith`. -/
def jsStartsWith (s pre : String) : Bool :=
  (matchLit pre.data s.data).isSome

/-- JS `String.prototype.split` with a single-character separator
(empty pieces are kept, as in JS). -/
def splitOnChar (sep : Char) : List Char → List (List Char)
  | [] => [[]]
  | c :: rest =>
    match splitOnChar sep rest with
    | [] => if c = sep then [[], []] else [[c]]
    | h :: t => if c = sep then [] :: h :: t else (c :: h) :: t

/-- ASCII lower-casing of one character (sufficient for the column-name
comparisons performed by the source). -/
def lowerChar (c : Char) : Char :=
  if 'A' ≤ c ∧ c ≤ 'Z' then Char.ofNat (c.toNat + 32) else c

/-- JS `String.prototype.toLowerCase` on ASCII data. -/
def lowerStr (s : String) : String :=
  String.mk (s.data.map lowerChar)

/-- Truthy-and-nonblank check `record[field] && record[field].trim()` used
throughout the source. -/
def hasValue (record : Record) (field : String) : Bool :=
  getD record field != "" && jsTrim (getD record field) != ""

/-- Concatenation of the images of a list-valued function (JS pushes with
spread into an accumulator array). -/
def concatMap (f : α → List β) : List α → List β
  | [] => []
  | a :: l => f a ++ concatMap f l

/-- JS `String.prototype.padStart(n, c)`. -/
def padStart (s : String) (n : Nat) (c : Char) : String :=
  if n ≤ s.length then s else String.mk (List.replicate (n - s.length) c ++ s.data)

/-!
### The text cleaner `cleanHtml` (convert.js lines 387-396)

`cleanHtml` applies five sequential global replacements:
1. `/<br\s*\/?>/gi` → `'\n'`;
2. `/<\/?(p|span|div|ul|li)[^>]*>/gi` → `''`;
3. `/</g` → `'≺'`; 4. `/>/g` → `'≻'`;
5. `/\n\s*\n/g` → `'\n'`;
then `trim()`.

Each regex pass is embedded as a left-to-right scanner. Failed partial token
matches re-examine the failing character itself; this is equivalent to the
regex engine's resume-at-start-plus-one because no skipped buffered character
can begin a match (a `<br`/tag match must begin with `<`, and buffered
characters after the initial `<` are never `<`; similarly for the newline
collapsing pass).
-/

/-- Scanner for pass 1, `/<br\s*\/?>/gi → '\n'`. The `stage` records how much
of the token has been seen (0 = outside, 1 = after `<`, 2 = after `<b`,
3 = after `<br` and any whitespace, 4 = after the optional `/`), and `buf`
holds the original characters of the pending partial token. -/
def brGo : Nat → List Char → List Char → List Char
  | 0, _, [] => []
  | _, buf, [] => buf
  | 0, _, c :: rest =>
    if c = '<' then brGo 1 ['<'] rest else c :: brGo 0 [] rest
  | 1, buf, c :: rest =>
    if c = 'b' ∨ c = 'B' then brGo 2 (buf ++ [c]) rest
    else buf ++ (if c = '<' then brGo 1 ['<'] rest else c :: brGo 0 [] rest)
  | 2, buf, c :: rest =>
    if c = 'r' ∨ c = 'R' then brGo 3 (buf ++ [c]) rest
    else buf ++ (if c = '<' then brGo 1 ['<'] rest else c :: brGo 0 [] rest)
  | 3, buf, c :: rest =>
    if c = '>' then '\n' :: brGo 0 [] rest
    else if c = '/' then brGo 4 (buf ++ [c]) rest
    else if isJsSpace c then brGo 3 (buf ++ [c]) rest
    else buf ++ (if c = '<' then brGo 1 ['<'] rest else c :: brGo 0 [] rest)
  | _, buf, c :: rest =>
    if c = '>' then '\n' :: brGo 0 [] rest
    else buf ++ (if c = '<' then brGo 1 ['<'] rest else c :: brGo 0 [] rest)

/-- Pass 1 of `cleanHtml`. -/
def replaceBr (cs : List Char) : List Char := brGo 0 [] cs

/-- Remaining (lower-cased) letters of the tag-name alternative
`(p|span|div|ul|li)` selected by its first letter; the five alternatives have
pairwise distinct first letters, so the regex alternation never backtracks. -/
def tagAlt (c : Char) : Option (List Char) :=
  if lowerChar c = 'p' then some []
  else if lowerChar c = 's' then some ['p', 'a', 'n']
  else if lowerChar c = 'd' then some ['i', 'v']
  else if lowerChar c = 'u' then some ['l']
  else if lowerChar c = 'l' then some ['i']
  else none

/-- State of the pass 2 scanner for `/<\/?(p|span|div|ul|li)[^>]*>/gi → ''`. -/
inductive TagState where
  | scan : TagState
  | opened : List Char → Bool → TagState
  | named : List Char → List Char → TagState
  | inTail : List Char → TagState

/-- Scanner for pass 2. `opened buf slashOk` is the state right after `<`
(resp. `</` once the optional slash is consumed), `named buf rem` is matching
the remaining tag-name letters `rem`, and `inTail buf` consumes `[^>]*` until
the closing `>`. -/
def tagGo : TagState → List Char → List Char
  | .scan, [] => []
  | .opened buf _, [] => buf
  | .named buf _, [] => buf
  | .inTail buf, [] => buf
  | .scan, c :: rest =>
    if c = '<' then tagGo (.opened ['<'] true) rest else c :: tagGo .scan rest
  | .opened buf slashOk, c :: rest =>
    if slashOk ∧ c = '/' then tagGo (.opened (buf ++ ['/']) false) rest
    else
      match tagAlt c with
      | some [] => tagGo (.inTail (buf ++ [c])) rest
      | some rem => tagGo (.named (buf ++ [c]) rem) rest
      | none => buf ++ (if c = '<' then tagGo (.opened ['<'] true) rest else c :: tagGo .scan rest)
  | .named buf rem, c :: rest =>
    match rem with
    | r :: rs =>
      if lowerChar c = r then
        if rs.isEmpty then tagGo (.inTail (buf ++ [c])) rest
        else tagGo (.named (buf ++ [c]) rs) rest
      else buf ++ (if c = '<' then tagGo (.opened ['<'] true) rest else c :: tagGo .scan rest)
    | [] => buf ++ (if c = '<' then tagGo (.opened ['<'] true) rest else c :: tagGo .scan rest)
  | .inTail buf, c :: rest =>
    if c = '>' then tagGo .scan rest else tagGo (.inTail (buf ++ [c])) rest

/-- Pass 2 of `cleanHtml`. -/
def removeTags (cs : List Char) : List Char := tagGo .scan cs

/-- Pass 3, `/</g → '≺'`. -/
def replaceLtC (c : Char) : Char := if c = '<' then '≺' else c

/-- Pass 4, `/>/g → '≻'`. -/
def replaceGtC (c : Char) : Char := if c = '>' then '≻' else c

/-- Scanner for pass 5, `/\n\s*\n/g → '\n'`. The state `some buf` means a
newline is pending and `buf` holds the non-newline whitespace seen since it;
whenever another newline arrives the buffered whitespace is discarded and the
pending newline is coalesced with it, exactly as the greedy regex consumes
`\n` followed by every whitespace run ending in a newline. -/
def collapseGo : Option (List Char) → List Char → List Char
  | none, [] => []
  | some buf, [] => '\n' :: buf
  | none, c :: rest =>
    if c = '\n' then collapseGo (some []) rest else c :: collapseGo none rest
  | some buf, c :: rest =>
    if c = '\n' then collapseGo (some []) rest
    else if isJsSpace c then collapseGo (some (buf ++ [c])) rest
    else '\n' :: (buf ++ c :: collapseGo none rest)

/-- Pass 5 of `cleanHtml`. -/
def collapseNl (cs : List Char) : List Char := collapseGo none cs

/-- The full cleaning pipeline on character lists. -/
def cleanList (cs : List Char) : List Char :=
  trimList (collapseNl (((removeTags (replaceBr cs)).map replaceLtC).map replaceGtC))

/-- `cleanHtml` (convert.js lines 387-396); `if (!text) return ''` maps empty
input to the empty string. -/
def cleanHtml (text : String) : String :=
  if text = "" then "" else String.mk (cleanList text.data)


/-!
### Field formatters and classifiers (convert.js lines 125-152)
-/

/-- `formatAllureId` (convert.js lines 125-130): pad to 8 characters with `0`
and prepend `T`. -/
def formatAllureId (allureId : String) : String :=
  let idStr := allureId
  let paddedId := padStart idStr 8 '0'
  "T" ++ paddedId

/-- `mapStatus` (convert.js lines 132-138); CSV cell values are strings, so the
`automated === true` disjunct of the source is unreachable. -/
def mapStatus (automated : String) : String :=
  if automated = "true" then "automated" else "manual"

/-- `mapPriority` (convert.js lines 140-152): object-literal lookup with
`|| 'normal'` fallback (every mapped value is a non-empty string, hence
truthy). -/
def mapPriority (priority : String) : String :=
  if priority = "Blocker" then "high"
  else if priority = "Critical" then "high"
  else if priority = "Major" then "normal"
  else if priority = "Minor" then "normal"
  else if priority = "Trivial" then "low"
  else if priority = "🔴 High" then "high"
  else if priority = "🟡 Medium" then "normal"
  else if priority = "🟢 Low" then "low"
  else "normal"

/-!
### The scenario step parser (convert.js lines 154-206)
-/

/-- Matcher for `/^\[step \d+\]/`; on success returns the input after the
matched prefix. -/
def matchStepTag (cs : List Char) : Option (List Char) :=
  match matchLit ['[', 's', 't', 'e', 'p', ' '] cs with
  | none => none
  | some rest =>
    if (rest.takeWhile Char.isDigit).isEmpty then none
    else
      match rest.dropWhile Char.isDigit with
      | ']' :: rest2 => some rest2
      | _ => none

/-- Matcher for `/^\[step \d+\.\d+\]/`. -/
def matchStepResultTag (cs : List Char) : Option (List Char) :=
  match matchLit ['[', 's', 't', 'e', 'p', ' '] cs with
  | none => none
  | some rest =>
    if (rest.takeWhile Char.isDigit).isEmpty then none
    else
      match rest.dropWhile Char.isDigit with
      | '.' :: rest2 =>
        if (rest2.takeWhile Char.isDigit).isEmpty then none
        else
          match rest2.dropWhile Char.isDigit with
          | ']' :: rest3 => some rest3
          | _ => none
      | _ => none

/-- One iteration of the `for (const line of lines)` loop of `parseScenario`.
The accumulator is the pair (`steps` pushed so far, `currentStep`). -/
def stepLine (acc : List String × Option String) (line : String) :
    List String × Option String :=
  let trimmedLine := jsTrim line
  if (matchStepTag trimmedLine.data).isSome then
    let flushed := match acc.2 with
      | some currentStep => acc.1 ++ [currentStep]
      | none => acc.1
    let stepText := String.mk (((matchStepTag trimmedLine.data).getD []).dropWhile isJsSpace)
    (flushed, some ("* " ++ cleanHtml stepText))
  else if (matchStepResultTag trimmedLine.data).isSome then
    match acc.2 with
    | some currentStep =>
      let expectedText :=
        String.mk (((matchStepResultTag trimmedLine.data).getD []).dropWhile isJsSpace)
      (acc.1, some (currentStep ++ "\n  *Expected:* " ++ cleanHtml expectedText))
    | none => acc
  else if trimmedLine != "" && !(jsStartsWith trimmedLine "[") && acc.2.isSome then
    match acc.2 with
    | some currentStep => (acc.1, some (currentStep ++ "\n    " ++ cleanHtml trimmedLine))
    | none => acc
  else if jsStartsWith trimmedLine "-" && acc.2.isSome then
    let subItem := String.mk ((trimmedLine.data.drop 1).dropWhile isJsSpace)
    match acc.2 with
    | some currentStep =>
      if subItem != "" then (acc.1, some (currentStep ++ "\n    " ++ cleanHtml subItem))
      else acc
    | none => acc
  else if trimmedLine != "" && !(jsStartsWith trimmedLine "[") &&
      !(jsStartsWith trimmedLine "-") && acc.2.isNone then
    (acc.1, some ("* " ++ cleanHtml trimmedLine))
  else acc

/-- `parseScenario` (convert.js lines 154-206). -/
def parseScenario (scenario : String) : List String :=
  let lines := (splitOnChar '\n' scenario.data).map String.mk
  let res := lines.foldl stepLine ([], none)
  match res.2 with
  | some currentStep => res.1 ++ [currentStep]
  | none => res.1


/-!
### The folder path builder (convert.js lines 208-256)
-/

/-- One hierarchy level of `buildFolderHierarchy`: prefer the `FolderN` value,
else the first comma-separated piece of the named field. -/
def folderLevel (record : Record) (folderField namedField : String) : List String :=
  if hasValue record folderField then [jsTrim (getD record folderField)]
  else if hasValue record namedField then
    let firstValue := jsTrim (String.mk ((splitOnChar ',' (getD record namedField).data).headD []))
    if firstValue != "" then [firstValue] else []
  else []

/-- The segments produced by the four precedence levels plus `Folder5..Folder8`
(convert.js lines 208-243). -/
def folderLevelParts (record : Record) : List String :=
  folderLevel record "Folder1" "Epic" ++
  folderLevel record "Folder2" "Feature" ++
  folderLevel record "Folder3" "Story" ++
  folderLevel record "Folder4" "SubStory" ++
  ((["Folder5", "Folder6", "Folder7", "Folder8"].filter fun f => hasValue record f).map
    fun f => jsTrim (getD record f))

/-- The fallback loop (convert.js lines 246-252): a `forEach` over the four
legacy fields that pushes every non-blank value. -/
def folderFallbackParts (record : Record) : List String :=
  ((["Suite", "Folder", "Test Suite", "Test Suite Path"].filter fun f => hasValue record f).map
    fun f => jsTrim (getD record f))

/-- Segment-internal `/` is replaced by `|` (convert.js line 255). -/
def slashToBar (c : Char) : Char := if c = '/' then '|' else c

/-- `buildFolderHierarchy` (convert.js lines 208-256). -/
def buildFolderHierarchy (record : Record) : String :=
  let folderParts := folderLevelParts record
  let folderParts := if folderParts.length = 0 then folderFallbackParts record else folderParts
  String.intercalate "/" (folderParts.map fun part => String.mk (part.data.map slashToBar))


/-!
### The label extractor (convert.js lines 258-322)
-/

/-- The reserved column set of `extractLabels` (convert.js lines 262-265). -/
def extractedColumns : List String :=
  ["allure_id", "name", "scenario", "precondition", "tag", "Owner", "Priority",
   "link", "Suite", "automated", "Epic", "Feature", "Story", "SubStory"]

/-- Stage (a) of `extractLabels` (convert.js lines 267-296): harvest arbitrary
extra columns, filtering out reserved keys, `jira-`/`folder` prefixed keys and
values with newlines, double quotes or more than 100 characters. -/
def labelsStageA (record : Record) : List String :=
  record.filterMap fun kv =>
    if kv.2 = "" then none
    else if jsTrim kv.2 = "" then none
    else if extractedColumns.contains kv.1 then none
    else if jsStartsWith (lowerStr kv.1) "jira-" then none
    else if jsStartsWith (lowerStr kv.1) "folder" then none
    else
      let cleanValue := jsTrim kv.2
      if '\n' ∈ cleanValue.data ∨ '"' ∈ cleanValue.data ∨ cleanValue.data.length > 100 then none
      else some (kv.1 ++ ":" ++ cleanValue)

/-- Stage (b) of `extractLabels` (convert.js lines 298-307): emit every
comma-separated piece of Epic/Feature/Story/SubStory as a label, with no
newline/quote/length filtering. -/
def labelsStageB (record : Record) : List String :=
  concatMap
    (fun field =>
      if hasValue record field then
        (((splitOnChar ',' (getD record field).data).map fun v => jsTrim (String.mk v)).filter
            fun v => v != "").map
          fun v => field ++ ":" ++ v
      else [])
    ["Epic", "Feature", "Story", "SubStory"]

/-- Stage (c) of `extractLabels` (convert.js lines 309-319): append a
`status:` label unless one is already present. -/
def labelsStageC (record : Record) (labels : List String) : List String :=
  if hasValue record "status" && !(labels.any fun label => jsStartsWith label "status:") then
    ["status:" ++ jsTrim (getD record "status")]
  else []

/-- `extractLabels` (convert.js lines 258-322). -/
def extractLabels (record : Record) : String :=
  let ab := labelsStageA record ++ labelsStageB record
  String.intercalate ", " (ab ++ labelsStageC record ab)


/-!
### Tag, issue and link extractors (convert.js lines 324-385)
-/

/-- JS `replace(/\s+/g, '_')`: each whitespace run becomes one underscore.
The flag records whether a run is pending. -/
def wsGo : Bool → List Char → List Char
  | false, [] => []
  | true, [] => ['_']
  | pending, c :: rest =>
    if isJsSpace c then wsGo true rest
    else if pending then '_' :: c :: wsGo false rest
    else c :: wsGo false rest

/-- `extractTags` (convert.js lines 324-344). -/
def extractTags (record : Record) : String :=
  let tags : List String :=
    (if hasValue record "tag" then
      (splitOnChar ',' (jsTrim (getD record "tag")).data).map
        fun t => String.mk (wsGo false (trimList t))
    else []) ++
    (if getD record "SubStory" != "" then
      [String.mk (wsGo false (trimList (getD record "SubStory").data))] else []) ++
    (if getD record "Test Type" != "" then
      [String.mk (wsGo false (trimList (getD record "Test Type").data))] else []) ++
    (if getD record "Automation Type" != "" then
      [String.mk (wsGo false (trimList (getD record "Automation Type").data))] else [])
  String.intercalate "," tags


/-- State of the `/([A-Z]+-\d+)/g` scanner: outside a candidate, inside the
letter run, right after the hyphen, or inside the digit run; `buf` holds the
candidate characters consumed so far. -/
inductive JState where
  | scan : JState
  | letters : List Char → JState
  | hyphen : List Char → JState
  | digits : List Char → JState

/-- Uppercase ASCII letter, the `[A-Z]` class. -/
def isUpperAZ (c : Char) : Bool := decide ('A' ≤ c) && decide (c ≤ 'Z')

/-- Scanner collecting all matches of `/([A-Z]+-\d+)/g` in encounter order.
On failure the failing character itself is re-examined, which agrees with the
regex engine's retry positions because no skipped character can start a new
match. -/
def jiraGo : JState → List Char → List String
  | .scan, [] => []
  | .letters _, [] => []
  | .hyphen _, [] => []
  | .digits buf, [] => [String.mk buf]
  | .scan, c :: rest =>
    if isUpperAZ c then jiraGo (.letters [c]) rest else jiraGo .scan rest
  | .letters buf, c :: rest =>
    if isUpperAZ c then jiraGo (.letters (buf ++ [c])) rest
    else if c = '-' then jiraGo (.hyphen (buf ++ [c])) rest
    else jiraGo .scan rest
  | .hyphen buf, c :: rest =>
    if c.isDigit then jiraGo (.digits (buf ++ [c])) rest
    else if isUpperAZ c then jiraGo (.letters [c]) rest
    else jiraGo .scan rest
  | .digits buf, c :: rest =>
    if c.isDigit then jiraGo (.digits (buf ++ [c])) rest
    else
      String.mk buf ::
        (if isUpperAZ c then jiraGo (.letters [c]) rest else jiraGo .scan rest)

/-- All `/([A-Z]+-\d+)/g` matches of a string, in encounter order. -/
def jiraMatches (value : String) : List String := jiraGo .scan value.data


/-- All identifier tokens collected by `extractJiraIssues` before
deduplication: first every `jira-*` column in record order, then the four
fixed fields (convert.js lines 350-370). -/
def collectJira (record : Record) : List String :=
  concatMap
    (fun kv =>
      if jsStartsWith (lowerStr kv.1) "jira-" && kv.2 != "" && jsTrim kv.2 != "" then
        jiraMatches kv.2
      else [])
    record ++
  concatMap
    (fun field => if hasValue record field then jiraMatches (getD record field) else [])
    ["link", "References", "description", "expected_result"]

/-- First-occurrence-preserving deduplication, the effect of
`[...new Set(jiraIssues)]`. -/
def dedupSeen (seen : List String) : List String → List String
  | [] => []
  | x :: xs =>
    if seen.contains x then dedupSeen seen xs else x :: dedupSeen (x :: seen) xs

/-- `extractJiraIssues` (convert.js lines 346-374). -/
def extractJiraIssues (record : Record) : String :=
  String.intercalate ", " (dedupSeen [] (collectJira record))


/-- `extractLinks` (convert.js lines 376-385). -/
def extractLinks (record : Record) : String :=
  String.intercalate ", " (if hasValue record "link" then [jsTrim (getD record "link")] else [])

/-!
### The per-record transform and the batch driver (convert.js lines 22-123)
-/

/-- The fixed twelve-column output schema. -/
structure OutRecord where
  ID : String
  Title : String
  Folder : String
  Emoji : String
  Priority : String
  Tags : String
  Owner : String
  Status : String
  Description : String
  Examples : String
  Labels : String
  Issues : String
  deriving Repr, DecidableEq

/-- The body of the `records.forEach` loop (convert.js lines 52-107): derive
one output record from one input record. -/
def transformRecord (record : Record) : OutRecord :=
  let allureId :=
    if getD record "allure_id" != "" then formatAllureId (getD record "allure_id") else ""
  let descriptionParts : List String :=
    (if hasValue record "precondition" then
      ["### Preconditions\n\n" ++ cleanHtml (jsTrim (getD record "precondition"))]
    else []) ++
    (if hasValue record "scenario" then
      let steps := parseScenario (getD record "scenario")
      if steps.length > 0 then ["### Steps\n\n" ++ String.intercalate "\n" steps] else []
    else []) ++
    (if hasValue record "expected_result" then
      ["### Expected Result\n\n" ++ cleanHtml (jsTrim (getD record "expected_result"))]
    else [])
  { ID := allureId
    Title := getD record "name"
    Folder := buildFolderHierarchy record
    Emoji := ""
    Priority := mapPriority (getD record "Priority")
    Tags := extractTags record
    Owner :=
      if getD record "Owner" != "" then getD record "Owner"
      else if getD record "Created By" != "" then getD record "Created By"
      else ""
    Status := mapStatus (getD record "automated")
    Description := String.intercalate "\n\n" descriptionParts
    Examples := ""
    Labels := extractLabels record
    Issues := extractJiraIssues record }

/-- The required input columns (convert.js lines 36-38). -/
def requiredColumns : List String := ["allure_id", "name", "scenario"]

/-- The transformation part of `convertTestCases` (convert.js lines 40-110) on
the parsed record sequence. The column validation reads
`Object.keys(records[0])`; on an empty record sequence this property access is
performed on `undefined` and throws a `TypeError`, modelled as the
corresponding `Except.error`. A missing required column aborts the run. -/
def convertTestCases (records : List Record) : Except String (List OutRecord) :=
  match records with
  | [] => Except.error "Cannot convert undefined or null to object"
  | r0 :: _ =>
    let inputColumns := r0.map Prod.fst
    let missingColumns := requiredColumns.filter fun col => !(inputColumns.contains col)
    if missingColumns.length > 0 then
      Except.error ("The following required columns are missing from the input file: " ++
        String.intercalate ", " missingColumns)
    else
      Except.ok (records.map transformRecord)

/-!
### Auxiliary predicates used by the theorems
-/

/-- Does the input start with a (possibly empty) run of non-newline JS
whitespace followed by a newline? This is where `/\n\s*\n/` can complete. -/
def wsNl : List Char → Bool
  | [] => false
  | c :: rest => if c = '\n' then true else if isJsSpace c then wsNl rest else false

/-- Does the input contain a match of `/\n\s*\n/`? -/
def hasNN : List Char → Bool
  | [] => false
  | c :: rest => (if c = '\n' then wsNl rest else false) || hasNN rest

/-- Specification-side first-occurrence deduplication, following the claim's
words "deduplicate keeping the first occurrence of each": keep each element's
first occurrence and delete every later copy, preserving order. -/
def keepFirst : List String → List String
  | [] => []
  | x :: xs => x :: keepFirst (xs.filter fun y => y != x)
termination_by l => l.length
decreasing_by
  simp only [List.length_cons]
  exact Nat.lt_succ_of_le (List.length_filter_le _ xs)

/-!
## Sanity checks of the embedding on concrete inputs
-/

example : cleanHtml "a<br/>b" = "a\nb" := by decide
example : cleanHtml "<p>x</p>" = "x" := by decide
example : cleanHtml " a<b \n \n c " = "a≺b \n c" := by decide
example : cleanHtml "<pre>z" = "z" := by decide
example : cleanHtml "<sx>" = "≺sx≻" := by decide

example :
    parseScenario "[step 1] Open page\n[step 1.1] Page loads" =
      ["* Open page\n  *Expected:* Page loads"] := by decide

example : buildFolderHierarchy [("Epic", "Payments"), ("Folder2", "Checkout")] =
    "Payments/Checkout" := by decide

example : extractLabels [("region", "EU"), ("Epic", "Payments")] =
    "region:EU, Epic:Payments" := by decide

example : extractTags [("tag", "smoke, ui")] = "smoke,ui" := by decide

example : jiraMatches "see ABC-123 and DEF-4 or ABC-123" = ["ABC-123", "DEF-4", "ABC-123"] := by
  decide
example : jiraMatches "XAB-DEF-12x" = ["DEF-12"] := by decide

example : extractJiraIssues [("jira-a", "ABC-1"), ("jira-b", "ABC-1 DEF-2")] =
    "ABC-1, DEF-2" := by decide

example : keepFirst ["ABC-1", "DEF-2", "ABC-1"] = ["ABC-1", "DEF-2"] := by simp [keepFirst]

example :
    (transformRecord
      [("allure_id", "93358"), ("name", "Login"),
       ("scenario", "[step 1] Open page\n[step 1.1] Page loads"),
       ("automated", "true"), ("Priority", "Blocker"), ("tag", "smoke, ui")]) =
    { ID := "T00093358", Title := "Login", Folder := "", Emoji := "",
      Priority := "high", Tags := "smoke,ui", Owner := "", Status := "automated",
      Description := "### Steps\n\n* Open page\n  *Expected:* Page loads",
      Examples := "", Labels := "", Issues := "" } := by decide

/-!
## Shared helper lemmas
-/

theorem strDataAppend (a b : String) : (a ++ b).data = a.data ++ b.data := by
  cases a; cases b; rfl

theorem strLengthData (s : String) : s.length = s.data.length := rfl

theorem formatAllureId_data (s : String) :
    (formatAllureId s).data = 'T' :: (List.replicate (8 - s.length) '0' ++ s.data) := by
  show ("T" ++ padStart s 8 '0').data = _
  rw [strDataAppend]
  unfold padStart
  split_ifs with h
  · have h0 : 8 - s.length = 0 := Nat.sub_eq_zero_of_le h
    rw [h0, List.replicate_zero, List.nil_append]
    rfl
  · rfl

/-!
## Claim C1: the priority classifier
-/

/-- C4 (the claim is the intended behavior; the code throws): on an empty
record sequence the column validation accesses `Object.keys(records[0])` with
`records[0]` undefined, so `convertTestCases` fails with a `TypeError` instead
of producing a header-only output. -/
theorem convertTestCases_empty_input_throws :
    convertTestCases [] = Except.error "Cannot convert undefined or null to object" := rfl

/-!
## Claim C8: the identifier formatter on 1-8 digit identifiers
-/

/-- C8: for an identifier of 1 to 8 decimal digits, `formatAllureId` returns a
9-character string: `T` followed by the identifier left-padded with `0` to
length 8. -/
theorem formatAllureId_pads (s : String) (hlen1 : 1 ≤ s.length) (hlen8 : s.length ≤ 8)
    (_hdig : ∀ c ∈ s.data, c.isDigit = true) :
    (formatAllureId s).length = 9 ∧
    (formatAllureId s).data = 'T' :: (List.replicate (8 - s.length) '0' ++ s.data) ∧
    (List.replicate (8 - s.length) '0' ++ s.data).length = 8 := by
  have hd := formatAllureId_data s
  have hlen : (List.replicate (8 - s.length) '0' ++ s.data).length = 8 := by
    rw [List.length_append, List.length_replicate, ← strLengthData]
    omega
  refine ⟨?_, hd, hlen⟩
  rw [strLengthData, hd]
  simp [hlen]

/-- Witness for C8 at the concrete identifier `42`. -/
theorem formatAllureId_pads_witness :
    (1 ≤ ("42" : String).length ∧ ("42" : String).length ≤ 8 ∧
      ∀ c ∈ ("42" : String).data, c.isDigit = true) ∧
    ((formatAllureId "42").length = 9 ∧
      (formatAllureId "42").data =
        'T' :: (List.replicate (8 - ("42" : String).length) '0' ++ ("42" : String).data) ∧
      (List.replicate (8 - ("42" : String).length) '0' ++ ("42" : String).data).length = 8) :=
  ⟨⟨by decide, by decide, by decide⟩,
    formatAllureId_pads "42" (by decide) (by decide) (by decide)⟩

/-!
## Claim C6: the ID output field invariant
-/

/-- C6: for every record whose source identifier is a decimal numeral (or
empty/absent), the `ID` output field is either empty or `T` followed by at
least 8 decimal digits, namely the numeral zero-padded to 8 digits with no
truncation of longer numerals. -/
theorem transformRecord_id_invariant (record : Record)
    (hdig : ∀ c ∈ (getD record "allure_id").data, c.isDigit = true) :
    (getD record "allure_id" = "" → (transformRecord record).ID = "") ∧
    (getD record "allure_id" ≠ "" →
      (transformRecord record).ID.data =
        'T' :: (List.replicate (8 - (getD record "allure_id").length) '0' ++
          (getD record "allure_id").data) ∧
      8 ≤ (transformRecord record).ID.data.tail.length ∧
      ∀ c ∈ (transformRecord record).ID.data.tail, c.isDigit = true) := by
  have hID : (transformRecord record).ID =
      if getD record "allure_id" != "" then formatAllureId (getD record "allure_id") else "" := rfl
  constructor
  · intro h
    rw [hID, h]
    rfl
  · intro h
    have hne : (getD record "allure_id" != "") = true := bne_iff_ne.mpr h
    rw [hID, if_pos hne]
    have hd := formatAllureId_data (getD record "allure_id")
    refine ⟨hd, ?_, ?_⟩
    · rw [hd]
      simp [← strLengthData]
      omega
    · rw [hd]
      intro c hc
      simp only [List.tail_cons, List.mem_append] at hc
      rcases hc with hc | hc
      · rw [List.eq_of_mem_replicate hc]
        decide
      · exact hdig c hc

/-- Witness for C6 at a record with a 9-digit identifier (no truncation). -/
theorem transformRecord_id_invariant_witness :
    (∀ c ∈ (getD [("allure_id", "123456789")] "allure_id").data, c.isDigit = true) ∧
    (transformRecord [("allure_id", "123456789")]).ID.data =
      'T' :: (List.replicate (8 - (getD [("allure_id", "123456789")] "allure_id").length) '0' ++
        (getD [("allure_id", "123456789")] "allure_id").data) :=
  ⟨by decide,
    ((transformRecord_id_invariant [("allure_id", "123456789")] (by decide)).2 (by decide)).1⟩

/-!
## Claim C10: the Owner output field
-/

/-- C10: the `Owner` output equals the `Owner` column when non-empty (used
verbatim, so a whitespace-only value does not fall through), else the
`Created By` column when non-empty, else the empty string. -/
theorem transformRecord_owner_fallback (record : Record) :
    (getD record "Owner" ≠ "" → (transformRecord record).Owner = getD record "Owner") ∧
    (getD record "Owner" = "" → getD record "Created By" ≠ "" →
      (transformRecord record).Owner = getD record "Created By") ∧
    (getD record "Owner" = "" → getD record "Created By" = "" →
      (transformRecord record).Owner = "") := by
  have hOwn : (transformRecord record).Owner =
      if getD record "Owner" != "" then getD record "Owner"
      else if getD record "Created By" != "" then getD record "Created By"
      else "" := rfl
  refine ⟨fun h => ?_, fun h1 h2 => ?_, fun h1 h2 => ?_⟩
  · rw [hOwn, if_pos (bne_iff_ne.mpr h)]
  · rw [hOwn]
    simp [h1, bne_iff_ne.mpr h2]
  · rw [hOwn]
    simp [h1, h2]

/-- Witness for C10: a whitespace-only `Owner` value is emitted as-is. -/
theorem transformRecord_owner_fallback_witness :
    (transformRecord [("Owner", " "), ("Created By", "alice")]).Owner = " " := by
  have h := (transformRecord_owner_fallback [("Owner", " "), ("Created By", "alice")]).1
  simpa using h (by decide)

/-!
## Claim C2: the folder fallback path
-/

/-- C2 counterexample: with `Suite` and `Folder` both non-blank and no other
folder source, the fallback contributes two segments, not one. -/
theorem buildFolderHierarchy_fallback_counterexample :
    buildFolderHierarchy [("Suite", "A"), ("Folder", "B")] = "A/B" ∧
    (splitOnChar '/' (buildFolderHierarchy [("Suite", "A"), ("Folder", "B")]).data).length = 2 := by
  decide

/-- C2 amended: when the precedence levels and `Folder1..Folder8` produce zero
segments, the fallback loop appends the trimmed value of every non-blank field
among `Suite`, `Folder`, `Test Suite`, `Test Suite Path` in that fixed order
(possibly several segments), and the folder path is their `/`-join after the
`/`→`|` segment substitution. -/
theorem buildFolderHierarchy_fallback_all (record : Record)
    (h : folderLevelParts record = []) :
    buildFolderHierarchy record =
      String.intercalate "/"
        ((folderFallbackParts record).map fun part => String.mk (part.data.map slashToBar)) := by
  unfold buildFolderHierarchy
  rw [h]
  rfl

/-- Witness for C2 at a record with two non-blank fallback fields. -/
theorem buildFolderHierarchy_fallback_all_witness :
    folderLevelParts [("Suite", "A"), ("Folder", "B")] = [] ∧
    buildFolderHierarchy [("Suite", "A"), ("Folder", "B")] =
      String.intercalate "/"
        ((folderFallbackParts [("Suite", "A"), ("Folder", "B")]).map
          fun part => String.mk (part.data.map slashToBar)) :=
  ⟨by decide, buildFolderHierarchy_fallback_all [("Suite", "A"), ("Folder", "B")] (by decide)⟩

/-!
## Claim C3: the Labels filtering invariant
-/

/-- C3 counterexample: an `Epic` value containing a double quote is re-emitted
as a label unfiltered, so a `Labels` entry can contain a double quote. -/
theorem extractLabels_quote_counterexample :
    extractLabels [("Epic", "A\"B")] = "Epic:A\"B" ∧
    '"' ∈ (extractLabels [("Epic", "A\"B")]).data := by decide

/-- C3 amended: the newline/double-quote/length-100 exclusion applies to the
labels harvested from arbitrary extra columns (stage (a) of `extractLabels`):
each such label is `key:value` with a value free of newlines and double quotes
and at most 100 characters long. The Epic/Feature/Story/SubStory split labels
and the appended `status` label are emitted without this filtering. -/
theorem labelsStageA_filtered (record : Record) (s : String)
    (hs : s ∈ labelsStageA record) :
    ∃ k v, s = k ++ ":" ++ v ∧ '\n' ∉ v.data ∧ '"' ∉ v.data ∧ v.data.length ≤ 100 := by
  unfold labelsStageA at hs
  rw [List.mem_filterMap] at hs
  obtain ⟨kv, -, heq⟩ := hs
  split at heq
  · exact absurd heq (by simp)
  split at heq
  · exact absurd heq (by simp)
  split at heq
  · exact absurd heq (by simp)
  split at heq
  · exact absurd heq (by simp)
  split at heq
  · exact absurd heq (by simp)
  rename_i hguard
  dsimp only at heq
  split at heq
  · exact absurd heq (by simp)
  rename_i hval
  push_neg at hval
  obtain ⟨hnl, hq, hlen⟩ := hval
  refine ⟨kv.1, jsTrim kv.2, ?_, hnl, hq, by omega⟩
  exact (Option.some.injEq _ _ ▸ heq).symm

/-- Witness for C3 at the extra column `region:EU`. -/
theorem labelsStageA_filtered_witness :
    "region:EU" ∈ labelsStageA [("region", "EU")] ∧
    ∃ k v, "region:EU" = k ++ ":" ++ v ∧ '\n' ∉ v.data ∧ '"' ∉ v.data ∧
      v.data.length ≤ 100 :=
  ⟨by decide, labelsStageA_filtered [("region", "EU")] "region:EU" (by decide)⟩

/-!
## Claim C5: dash lines in the scenario parser
-/

/-- C5 counterexample: a `-` line with a step open is appended by the generic
continuation branch with its `- ` prefix retained, not stripped. -/
theorem parseScenario_dash_counterexample :
    parseScenario "[step 1] Do\n- item" = ["* Do\n    - item"] ∧
    parseScenario "[step 1] Do\n- item" ≠ ["* Do\n    item"] := by decide

/-- C5 amended: a line whose trimmed form starts with `-` is handled by the
generic continuation branch when a step is open (the dedicated sub-item branch
is unreachable): the full cleaned trimmed line, `-` included, is appended
indented by four spaces. With no step open the line is dropped. -/
theorem stepLine_dash (steps : List String) (cur : Option String) (line : String)
    (h : jsStartsWith (jsTrim line) "-" = true) :
    stepLine (steps, cur) line =
      match cur with
      | some currentStep => (steps, some (currentStep ++ "\n    " ++ cleanHtml (jsTrim line)))
      | none => (steps, none) := by
  rcases htd : (jsTrim line).data with _ | ⟨c, l'⟩
  · rw [jsStartsWith, htd] at h
    simp [matchLit] at h
  have hc : c = '-' := by
    rw [jsStartsWith, htd] at h
    by_cases hc : c = '-'
    · exact hc
    · simp [matchLit, hc] at h
  subst hc
  have hA : matchStepTag (jsTrim line).data = none := by
    rw [htd]; simp [matchStepTag, matchLit]
  have hB : matchStepResultTag (jsTrim line).data = none := by
    rw [htd]; simp [matchStepResultTag, matchLit]
  have hBr : jsStartsWith (jsTrim line) "[" = false := by
    rw [jsStartsWith, htd]; simp [matchLit]
  have hne : (jsTrim line != "") = true := by
    refine bne_iff_ne.mpr fun hcon => ?_
    rw [hcon] at htd
    exact List.noConfusion htd
  cases cur with
  | some currentStep =>
    simp only [stepLine, hA, hB, hne, hBr]
    simp
  | none =>
    simp only [stepLine, hA, hB, hne, hBr, h]
    simp

/-- Witness for C5 with an open step and the line `- item`. -/
theorem stepLine_dash_witness :
    jsStartsWith (jsTrim "- item") "-" = true ∧
    stepLine ([], some "* Do") "- item" =
      ([], some ("* Do" ++ "\n    " ++ cleanHtml (jsTrim "- item"))) :=
  ⟨by decide, stepLine_dash [] (some "* Do") "- item" (by decide)⟩

/-!
## Claim C7: issue extraction deduplicates preserving order
-/

theorem dedupSeen_sublist (seen xs : List String) : (dedupSeen seen xs).Sublist xs := by
  induction xs generalizing seen with
  | nil => simp [dedupSeen]
  | cons x xs ih =>
    unfold dedupSeen
    split_ifs with h
    · exact (ih seen).cons x
    · exact (ih (x :: seen)).cons₂ x

theorem dedupSeen_mem (seen xs : List String) (a : String) :
    a ∈ dedupSeen seen xs ↔ a ∈ xs ∧ a ∉ seen := by
  induction xs generalizing seen with
  | nil => simp [dedupSeen]
  | cons x xs ih =>
    unfold dedupSeen
    split_ifs with h
    · have hx : x ∈ seen := List.elem_iff.mp h
      rw [ih]
      constructor
      · exact fun ⟨h1, h2⟩ => ⟨List.mem_cons_of_mem x h1, h2⟩
      · rintro ⟨h1, h2⟩
        rcases List.mem_cons.mp h1 with rfl | h1
        · exact absurd hx h2
        · exact ⟨h1, h2⟩
    · have hx : x ∉ seen := fun hmem => h (List.elem_iff.mpr hmem)
      constructor
      · intro hmem
        rcases List.mem_cons.mp hmem with rfl | hmem
        · exact ⟨List.mem_cons_self a xs, hx⟩
        · have := (ih (x :: seen)).mp hmem
          exact ⟨List.mem_cons_of_mem x this.1,
            fun hseen => this.2 (List.mem_cons_of_mem x hseen)⟩
      · rintro ⟨h1, h2⟩
        by_cases hax : a = x
        · subst hax
          exact List.mem_cons_self a _
        · rcases List.mem_cons.mp h1 with rfl | h1
          · exact absurd rfl hax
          · exact List.mem_cons_of_mem x ((ih (x :: seen)).mpr
              ⟨h1, fun hmem => (List.mem_cons.mp hmem).elim hax h2⟩)

theorem dedupSeen_nodup (seen xs : List String) : (dedupSeen seen xs).Nodup := by
  induction xs generalizing seen with
  | nil => simp [dedupSeen]
  | cons x xs ih =>
    unfold dedupSeen
    split_ifs with h
    · exact ih seen
    · refine List.nodup_cons.mpr ⟨fun hmem => ?_, ih (x :: seen)⟩
      exact ((dedupSeen_mem (x :: seen) xs x).mp hmem).2 (List.mem_cons_self x seen)

theorem dedupSeen_eq_keepFirst (xs : List String) : ∀ seen : List String,
    dedupSeen seen xs = keepFirst (xs.filter fun y => !(seen.contains y)) := by
  induction xs with
  | nil => intro seen; simp [dedupSeen, keepFirst]
  | cons x xs ih =>
    intro seen
    unfold dedupSeen
    split_ifs with h
    · rw [List.filter_cons, if_neg (by simpa using h)]
      exact ih seen
    · rw [List.filter_cons, if_pos (by simpa using h)]
      rw [keepFirst]
      congr 1
      rw [ih (x :: seen), List.filter_filter]
      congr 1
      apply List.filter_congr
      intro y _
      rw [List.contains_cons]
      simp [bne, Bool.not_or]

theorem keepFirst_eq_dedupSeen (l : List String) : keepFirst l = dedupSeen [] l := by
  rw [dedupSeen_eq_keepFirst]
  congr 1
  have hp : (fun (y : String) => !(([] : List String).contains y)) = fun _ => true := by
    funext y
    rfl
  rw [hp, List.filter_true]

/-- C7: the Issues output is the `", "`-join of the first-occurrence
deduplication `keepFirst` of the encounter-order token collection
`collectJira` — all `jira-*` columns first, then `link`, `References`,
`description`, `expected_result`. `keepFirst` keeps each token's first
occurrence and drops every later copy, so the joined list has no repeated
token, is a sublist of (hence ordered like) the collection, and contains
exactly the collected tokens. -/
theorem extractJiraIssues_dedups (record : Record) :
    extractJiraIssues record = String.intercalate ", " (keepFirst (collectJira record)) ∧
    (keepFirst (collectJira record)).Nodup ∧
    (keepFirst (collectJira record)).Sublist (collectJira record) ∧
    ∀ x, x ∈ keepFirst (collectJira record) ↔ x ∈ collectJira record := by
  rw [keepFirst_eq_dedupSeen]
  refine ⟨rfl, dedupSeen_nodup [] _, dedupSeen_sublist [] _, fun x => ?_⟩
  rw [dedupSeen_mem]
  simp

/-!
## Claim C9: idempotence of the text cleaner

Strategy: every output of `cleanList` (i) contains no `<` or `>`, (ii)
contains no residual `/\n\s*\n/` match, and (iii) is trim-fixed; and every
character list with these three properties is a fixed point of every pass of
`cleanList`.
-/

theorem lenDropWhileLe (p : Char → Bool) (l : List Char) :
    (l.dropWhile p).length ≤ l.length := by
  induction l with
  | nil => simp
  | cons c rest ih =>
    rw [List.dropWhile_cons]
    split_ifs
    · simp
      omega
    · simp

theorem dropWhile_dropWhile (p : Char → Bool) (l : List Char) :
    (l.dropWhile p).dropWhile p = l.dropWhile p := by
  induction l with
  | nil => rfl
  | cons c rest ih =>
    rw [List.dropWhile_cons]
    split_ifs with h
    · exact ih
    · rw [List.dropWhile_cons, if_neg h]

theorem trimList_decomp (cs : List Char) :
    cs = cs.takeWhile isJsSpace ++ trimList cs ++
      ((cs.dropWhile isJsSpace).reverse.takeWhile isJsSpace).reverse := by
  unfold trimList
  conv_lhs => rw [← List.takeWhile_append_dropWhile isJsSpace cs]
  rw [List.append_assoc]
  congr 1
  conv_lhs => rw [← List.reverse_reverse (cs.dropWhile isJsSpace)]
  conv_lhs =>
    rw [← List.takeWhile_append_dropWhile isJsSpace (cs.dropWhile isJsSpace).reverse]
  rw [List.reverse_append]

theorem mem_trimList (cs : List Char) (a : Char) (h : a ∈ trimList cs) : a ∈ cs := by
  rw [trimList_decomp cs]
  simp only [List.mem_append]
  exact Or.inl (Or.inr h)

theorem trimList_idem (cs : List Char) : trimList (trimList cs) = trimList cs := by
  have hdecomp : cs.dropWhile isJsSpace =
      trimList cs ++ ((cs.dropWhile isJsSpace).reverse.takeWhile isJsSpace).reverse := by
    unfold trimList
    conv_lhs => rw [← List.reverse_reverse (cs.dropWhile isJsSpace)]
    conv_lhs =>
      rw [← List.takeWhile_append_dropWhile isJsSpace (cs.dropWhile isJsSpace).reverse]
    rw [List.reverse_append]
  have hT : (trimList cs).dropWhile isJsSpace = trimList cs := by
    cases hTd : trimList cs with
    | nil => rfl
    | cons t T' =>
      have hA := dropWhile_dropWhile isJsSpace cs
      rw [hdecomp, hTd] at hA
      by_cases hpt : isJsSpace t = true
      · exfalso
        rw [List.cons_append, List.dropWhile_cons, if_pos hpt] at hA
        have hlen := congrArg List.length hA
        have hle := lenDropWhileLe isJsSpace
          (T' ++ ((cs.dropWhile isJsSpace).reverse.takeWhile isJsSpace).reverse)
        simp only [List.length_cons] at hlen
        omega
      · rw [List.dropWhile_cons, if_neg hpt]
  show (((trimList cs).dropWhile isJsSpace).reverse.dropWhile isJsSpace).reverse = trimList cs
  rw [hT]
  show ((((cs.dropWhile isJsSpace).reverse.dropWhile
      isJsSpace).reverse).reverse.dropWhile isJsSpace).reverse = _
  rw [List.reverse_reverse, dropWhile_dropWhile]
  rfl

theorem wsNl_allWs (buf : List Char)
    (h : ∀ c ∈ buf, isJsSpace c = true ∧ c ≠ '\n') : wsNl buf = false := by
  induction buf with
  | nil => rfl
  | cons c rest ih =>
    obtain ⟨hsp, hnl⟩ := h c (List.mem_cons_self c rest)
    simp only [wsNl, if_neg hnl, if_pos hsp]
    exact ih fun a ha => h a (List.mem_cons_of_mem c ha)

theorem hasNN_no_nl (l : List Char) (h : '\n' ∉ l) : hasNN l = false := by
  induction l with
  | nil => rfl
  | cons c rest ih =>
    have hc : c ≠ '\n' := fun hcc => h (hcc ▸ List.mem_cons_self c rest)
    simp only [hasNN, if_neg (fun hcc => hc hcc), Bool.false_or]
    exact ih fun hm => h (List.mem_cons_of_mem c hm)

theorem wsNl_append_allWs (buf m : List Char)
    (h : ∀ c ∈ buf, isJsSpace c = true ∧ c ≠ '\n') : wsNl (buf ++ m) = wsNl m := by
  induction buf with
  | nil => rfl
  | cons c rest ih =>
    obtain ⟨hsp, hnl⟩ := h c (List.mem_cons_self c rest)
    rw [List.cons_append]
    simp only [wsNl, if_neg hnl, if_pos hsp]
    exact ih fun a ha => h a (List.mem_cons_of_mem c ha)

theorem hasNN_append_no_nl (buf m : List Char) (h : '\n' ∉ buf) :
    hasNN (buf ++ m) = hasNN m := by
  induction buf with
  | nil => rfl
  | cons c rest ih =>
    have hc : c ≠ '\n' := fun hcc => h (hcc ▸ List.mem_cons_self c rest)
    rw [List.cons_append]
    simp only [hasNN, if_neg (fun hcc => hc hcc), Bool.false_or]
    exact ih fun hm => h (List.mem_cons_of_mem c hm)

theorem wsNl_append_true (l m : List Char) (h : wsNl l = true) : wsNl (l ++ m) = true := by
  induction l with
  | nil => simp [wsNl] at h
  | cons c rest ih =>
    by_cases hc : c = '\n'
    · simp [wsNl, hc]
    · by_cases hsp : isJsSpace c = true
      · rw [List.cons_append]
        simp only [wsNl, if_neg hc, if_pos hsp] at h ⊢
        exact ih h
      · simp only [wsNl, if_neg hc, if_neg hsp] at h
        exact absurd h (by simp)

theorem hasNN_append_false (l m : List Char) (h : hasNN (l ++ m) = false) :
    hasNN l = false ∧ hasNN m = false := by
  induction l with
  | nil => exact ⟨rfl, h⟩
  | cons c rest ih =>
    rw [List.cons_append] at h
    have h' : (if c = '\n' then wsNl (rest ++ m) else false) = false ∧
        hasNN (rest ++ m) = false := by
      simpa [hasNN] using h
    obtain ⟨h1, h2⟩ := h'
    obtain ⟨h3, h4⟩ := ih h2
    refine ⟨?_, h4⟩
    simp only [hasNN, h3, Bool.or_false]
    by_cases hc : c = '\n'
    · rw [if_pos hc] at h1 ⊢
      by_cases hw : wsNl rest = true
      · exact absurd (wsNl_append_true rest m hw) (by simp [h1])
      · simpa using hw
    · rw [if_neg hc]

theorem hasNN_collapseGo (cs : List Char) :
    hasNN (collapseGo none cs) = false ∧
    ∀ buf, (∀ c ∈ buf, isJsSpace c = true ∧ c ≠ '\n') →
      hasNN (collapseGo (some buf) cs) = false := by
  induction cs with
  | nil =>
    refine ⟨rfl, fun buf hbuf => ?_⟩
    show hasNN ('\n' :: buf) = false
    have h1 : wsNl buf = false := wsNl_allWs buf hbuf
    have h2 : hasNN buf = false := hasNN_no_nl buf fun hm => (hbuf _ hm).2 rfl
    simp [hasNN, h1, h2]
  | cons c rest ih =>
    constructor
    · show hasNN (if c = '\n' then collapseGo (some []) rest
        else c :: collapseGo none rest) = false
      by_cases hc : c = '\n'
      · rw [if_pos hc]
        exact ih.2 [] (by simp)
      · rw [if_neg hc]
        simp [hasNN, hc, ih.1]
    · intro buf hbuf
      show hasNN (if c = '\n' then collapseGo (some []) rest
        else if isJsSpace c then collapseGo (some (buf ++ [c])) rest
        else '\n' :: (buf ++ c :: collapseGo none rest)) = false
      by_cases hc : c = '\n'
      · rw [if_pos hc]
        exact ih.2 [] (by simp)
      · rw [if_neg hc]
        by_cases hsp : isJsSpace c = true
        · rw [if_pos hsp]
          refine ih.2 (buf ++ [c]) fun a ha => ?_
          rcases List.mem_append.mp ha with ha | ha
          · exact hbuf a ha
          · rw [List.mem_singleton.mp ha]
            exact ⟨hsp, hc⟩
        · rw [if_neg hsp]
          have hnlbuf : '\n' ∉ buf := fun hm => (hbuf _ hm).2 rfl
          have hw : wsNl (buf ++ c :: collapseGo none rest) = false := by
            rw [wsNl_append_allWs buf _ hbuf]
            simp [wsNl, hc, hsp]
          have hh : hasNN (buf ++ c :: collapseGo none rest) = false := by
            rw [hasNN_append_no_nl buf _ hnlbuf]
            simp [hasNN, hc, ih.1]
          simp [hasNN, hw, hh]

theorem collapseGo_eq_self (cs : List Char) :
    (hasNN cs = false → collapseGo none cs = cs) ∧
    (∀ buf, wsNl cs = false → hasNN cs = false →
      collapseGo (some buf) cs = '\n' :: (buf ++ cs)) := by
  induction cs with
  | nil =>
    refine ⟨fun _ => rfl, fun buf _ _ => ?_⟩
    show '\n' :: buf = '\n' :: (buf ++ [])
    rw [List.append_nil]
  | cons c rest ih =>
    constructor
    · intro hnn
      show (if c = '\n' then collapseGo (some []) rest
        else c :: collapseGo none rest) = c :: rest
      by_cases hc : c = '\n'
      · rw [if_pos hc]
        have h1 : wsNl rest = false := by
          have := hnn
          simp only [hasNN, if_pos hc, Bool.or_eq_false_iff] at this
          exact this.1
        have h2 : hasNN rest = false := by
          simp only [hasNN, Bool.or_eq_false_iff] at hnn
          exact hnn.2
        rw [ih.2 [] h1 h2, List.nil_append, hc]
      · rw [if_neg hc]
        have h2 : hasNN rest = false := by
          simp only [hasNN, Bool.or_eq_false_iff] at hnn
          exact hnn.2
        rw [ih.1 h2]
    · intro buf hws hnn
      show (if c = '\n' then collapseGo (some []) rest
        else if isJsSpace c then collapseGo (some (buf ++ [c])) rest
        else '\n' :: (buf ++ c :: collapseGo none rest)) = '\n' :: (buf ++ c :: rest)
      by_cases hc : c = '\n'
      · exfalso
        simp [wsNl, hc] at hws
      · rw [if_neg hc]
        have h2 : hasNN rest = false := by
          simp only [hasNN, Bool.or_eq_false_iff] at hnn
          exact hnn.2
        by_cases hsp : isJsSpace c = true
        · rw [if_pos hsp]
          have hwr : wsNl rest = false := by
            simp only [wsNl, if_neg hc, if_pos hsp] at hws
            exact hws
          rw [ih.2 (buf ++ [c]) hwr h2, List.append_assoc]
          rfl
        · rw [if_neg hsp, ih.1 h2]

theorem mem_collapseGo (cs : List Char) :
    (∀ a ∈ collapseGo none cs, a ∈ cs ∨ a = '\n') ∧
    (∀ buf a, a ∈ collapseGo (some buf) cs → a ∈ buf ∨ a ∈ cs ∨ a = '\n') := by
  induction cs with
  | nil =>
    refine ⟨fun a ha => absurd ha (List.not_mem_nil a), fun buf a ha => ?_⟩
    rcases List.mem_cons.mp ha with rfl | ha
    · exact Or.inr (Or.inr rfl)
    · exact Or.inl ha
  | cons c rest ih =>
    constructor
    · intro a ha
      by_cases hc : c = '\n'
      · rw [show collapseGo none (c :: rest) = collapseGo (some []) rest by
          show (if c = '\n' then collapseGo (some []) rest
            else c :: collapseGo none rest) = _
          rw [if_pos hc]] at ha
        rcases ih.2 [] a ha with h | h | h
        · exact absurd h (List.not_mem_nil a)
        · exact Or.inl (List.mem_cons_of_mem c h)
        · exact Or.inr h
      · rw [show collapseGo none (c :: rest) = c :: collapseGo none rest by
          show (if c = '\n' then collapseGo (some []) rest
            else c :: collapseGo none rest) = _
          rw [if_neg hc]] at ha
        rcases List.mem_cons.mp ha with rfl | ha
        · exact Or.inl (List.mem_cons_self a rest)
        · rcases ih.1 a ha with h | h
          · exact Or.inl (List.mem_cons_of_mem c h)
          · exact Or.inr h
    · intro buf a ha
      by_cases hc : c = '\n'
      · rw [show collapseGo (some buf) (c :: rest) = collapseGo (some []) rest by
          show (if c = '\n' then collapseGo (some []) rest
            else if isJsSpace c then collapseGo (some (buf ++ [c])) rest
            else '\n' :: (buf ++ c :: collapseGo none rest)) = _
          rw [if_pos hc]] at ha
        rcases ih.2 [] a ha with h | h | h
        · exact absurd h (List.not_mem_nil a)
        · exact Or.inr (Or.inl (List.mem_cons_of_mem c h))
        · exact Or.inr (Or.inr h)
      · by_cases hsp : isJsSpace c = true
        · rw [show collapseGo (some buf) (c :: rest) = collapseGo (some (buf ++ [c])) rest by
            show (if c = '\n' then collapseGo (some []) rest
              else if isJsSpace c then collapseGo (some (buf ++ [c])) rest
              else '\n' :: (buf ++ c :: collapseGo none rest)) = _
            rw [if_neg hc, if_pos hsp]] at ha
          rcases ih.2 (buf ++ [c]) a ha with h | h | h
          · rcases List.mem_append.mp h with h | h
            · exact Or.inl h
            · exact Or.inr (Or.inl (List.mem_singleton.mp h ▸ List.mem_cons_self c rest))
          · exact Or.inr (Or.inl (List.mem_cons_of_mem c h))
          · exact Or.inr (Or.inr h)
        · rw [show collapseGo (some buf) (c :: rest) =
              '\n' :: (buf ++ c :: collapseGo none rest) by
            show (if c = '\n' then collapseGo (some []) rest
              else if isJsSpace c then collapseGo (some (buf ++ [c])) rest
              else '\n' :: (buf ++ c :: collapseGo none rest)) = _
            rw [if_neg hc, if_neg hsp]] at ha
          rcases List.mem_cons.mp ha with rfl | ha
          · exact Or.inr (Or.inr rfl)
          · rcases List.mem_append.mp ha with h | h
            · exact Or.inl h
            · rcases List.mem_cons.mp h with rfl | h
              · exact Or.inr (Or.inl (List.mem_cons_self a rest))
              · rcases ih.1 a h with h2 | h2
                · exact Or.inr (Or.inl (List.mem_cons_of_mem c h2))
                · exact Or.inr (Or.inr h2)

theorem brGo_id (cs : List Char) (h : '<' ∉ cs) : brGo 0 [] cs = cs := by
  induction cs with
  | nil => rfl
  | cons c rest ih =>
    have hc : c ≠ '<' := fun hcc => h (hcc ▸ List.mem_cons_self c rest)
    show (if c = '<' then brGo 1 ['<'] rest else c :: brGo 0 [] rest) = c :: rest
    rw [if_neg hc, ih fun hm => h (List.mem_cons_of_mem c hm)]

theorem tagGo_id (cs : List Char) (h : '<' ∉ cs) : tagGo .scan cs = cs := by
  induction cs with
  | nil => rfl
  | cons c rest ih =>
    have hc : c ≠ '<' := fun hcc => h (hcc ▸ List.mem_cons_self c rest)
    show (if c = '<' then tagGo (.opened ['<'] true) rest else c :: tagGo .scan rest) = c :: rest
    rw [if_neg hc, ih fun hm => h (List.mem_cons_of_mem c hm)]

theorem mapSelf (f : Char → Char) (l : List Char) (h : ∀ a ∈ l, f a = a) :
    l.map f = l := by
  induction l with
  | nil => rfl
  | cons c rest ih =>
    rw [List.map_cons, h c (List.mem_cons_self c rest),
      ih fun a ha => h a (List.mem_cons_of_mem c ha)]

theorem cleanList_props (cs : List Char) :
    (∀ c ∈ cleanList cs, c ≠ '<' ∧ c ≠ '>') ∧
    hasNN (cleanList cs) = false ∧
    trimList (cleanList cs) = cleanList cs := by
  have hzlt : ∀ c ∈ ((removeTags (replaceBr cs)).map replaceLtC).map replaceGtC,
      c ≠ '<' ∧ c ≠ '>' := by
    intro c hc
    simp only [List.mem_map] at hc
    obtain ⟨b, ⟨a, _, hab⟩, hbc⟩ := hc
    subst hbc
    subst hab
    unfold replaceGtC replaceLtC
    by_cases ha : a = '<'
    · rw [if_pos ha]
      decide
    · rw [if_neg ha]
      by_cases hg : a = '>'
      · rw [if_pos hg]
        decide
      · rw [if_neg hg]
        exact ⟨ha, hg⟩
  refine ⟨?_, ?_, trimList_idem _⟩
  · intro c hc
    have hc2 := mem_trimList _ _ hc
    rcases (mem_collapseGo _).1 c hc2 with h | h
    · exact hzlt c h
    · rw [h]
      decide
  · have hnn : hasNN
        (collapseNl (((removeTags (replaceBr cs)).map replaceLtC).map replaceGtC)) = false :=
      (hasNN_collapseGo (((removeTags (replaceBr cs)).map replaceLtC).map replaceGtC)).1
    have hdec := trimList_decomp
      (collapseNl (((removeTags (replaceBr cs)).map replaceLtC).map replaceGtC))
    rw [List.append_assoc] at hdec
    rw [hdec] at hnn
    show hasNN (trimList
      (collapseNl (((removeTags (replaceBr cs)).map replaceLtC).map replaceGtC))) = false
    exact (hasNN_append_false _ _ (hasNN_append_false _ _ hnn).2).1

theorem cleanList_id (cs : List Char) (hlt : ∀ c ∈ cs, c ≠ '<' ∧ c ≠ '>')
    (hnn : hasNN cs = false) (htr : trimList cs = cs) : cleanList cs = cs := by
  have h1 : replaceBr cs = cs := brGo_id cs fun hm => (hlt _ hm).1 rfl
  have h2 : removeTags cs = cs := tagGo_id cs fun hm => (hlt _ hm).1 rfl
  have h3 : cs.map replaceLtC = cs := mapSelf _ _ fun a ha => by
    unfold replaceLtC
    rw [if_neg (hlt a ha).1]
  have h4 : cs.map replaceGtC = cs := mapSelf _ _ fun a ha => by
    unfold replaceGtC
    rw [if_neg (hlt a ha).2]
  have h5 : collapseNl cs = cs := (collapseGo_eq_self cs).1 hnn
  unfold cleanList
  rw [h1, h2, h3, h4, h5, htr]

/-- C9: the text cleaner is idempotent: cleaning an already-cleaned text is a
no-op, i.e. `cleanHtml (cleanHtml s) = cleanHtml s` for every string `s`.
Already-cleaned outputs contain no `<` or `>`, no collapsible blank run and no
leading/trailing whitespace, and each cleaning pass fixes such strings. -/
theorem cleanHtml_idempotent (s : String) : cleanHtml (cleanHtml s) = cleanHtml s := by
  by_cases hs : s = ""
  · subst hs
    rfl
  · have hch : cleanHtml s = String.mk (cleanList s.data) := by
      unfold cleanHtml
      rw [if_neg hs]
    by_cases hout : cleanList s.data = []
    · rw [hch, hout]
      decide
    · have hne : String.mk (cleanList s.data) ≠ "" := by
        intro hcon
        apply hout
        have hdat : (String.mk (cleanList s.data)).data = ("" : String).data := by rw [hcon]
        simpa using hdat
      rw [hch]
      unfold cleanHtml
      rw [if_neg hne]
      have hprops := cleanList_props s.data
      have hid := cleanList_id (cleanList s.data) hprops.1 hprops.2.1 hprops.2.2
      show String.mk (cleanList (cleanList s.data)) = String.mk (cleanList s.data)
      rw [hid]

end MigrateAllure
